import Mathlib

/-!
# Verification of the parakeet filename codec and consistency engine

Shallow embedding of the Go sources of `kijimaD/parakeet`:

* the filename codec `FormatFileName` / `ParseFileName` (README.md / format.go),
* the identifier clock `GenerateUniqueTimestamp` (format.go),
* the validation engine `ValidateFileNames` (validate.go),
* the tag editor `SetTags` / `EditTags` / `tagsEqual` (tag.go, the copy
  embedded in rename_test.go which carries the current registry-aware
  version).

Strings are embedded as `List Char` (Go strings are byte sequences; all
operations used here are character-wise, and UTF-8 byte order coincides
with code-point order, so `Char.val` comparisons model Go's byte-wise
string comparison).  Filesystem state is passed explicitly: a directory is
the list of its file names, and `os.Rename` is modelled by `renameFile`
with POSIX overwrite semantics.
-/

namespace Parakeet

/-- A Go string, embedded character-wise. -/
abbrev Str := List Char

/-- Characters of a Lean string literal, used to write concrete inputs. -/
def chars (s : String) : Str := s.data

/-- `FileNameComponents` from format.go: the decoded four-part record. -/
structure FileNameComponents where
  Timestamp : Str
  Comment   : Str
  Tags      : List Str
  Extension : Str
deriving DecidableEq

/-- Go `filepath.Ext`: the suffix starting at the final dot (dot included),
or the empty string when the name has no dot.  (The names handled by the
program contain no path separator, so `filepath.Ext` degenerates to this.) -/
def extOf (s : Str) : Str :=
  if '.' ∈ s then '.' :: (s.reverse.takeWhile (fun c => c != '.')).reverse else []

/-- `strings.TrimSuffix(filename, ext)` where `ext = extOf filename`:
since `extOf s` is always a suffix of `s`, trimming it is dropping its
length from the right. -/
def baseNameOf (s : Str) : Str := s.take (s.length - (extOf s).length)

/-- Helper for the splitters: prepend a character to the first chunk. -/
def consHead (c : Char) : List Str → List Str
  | [] => [[c]]
  | h :: t => (c :: h) :: t

/-- Go `strings.Split(s, "__")`: split around each leftmost-first
non-overlapping occurrence of the two-character secondary delimiter. -/
def splitDunder : Str → List Str
  | [] => [[]]
  | [c] => [[c]]
  | c₁ :: c₂ :: rest =>
    if c₁ = '_' ∧ c₂ = '_' then [] :: splitDunder rest
    else consHead c₁ (splitDunder (c₂ :: rest))

/-- Go `strings.SplitN(s, "--", 2)`: cut at the first occurrence of the
primary delimiter; `none` models the length-1 result (no occurrence). -/
def splitFirstDash : Str → Option (Str × Str)
  | [] => none
  | [_] => none
  | c₁ :: c₂ :: rest =>
    if c₁ = '-' ∧ c₂ = '-' then some ([], rest)
    else (splitFirstDash (c₂ :: rest)).map (fun p => (c₁ :: p.1, p.2))

/-- Whether a string contains `[x, x]` as a substring (defined directly,
independently of the splitters). -/
def containsPair (x : Char) : Str → Bool
  | [] => false
  | [_] => false
  | c₁ :: c₂ :: rest => (c₁ == x && c₂ == x) || containsPair x (c₂ :: rest)

/-- Whether a string contains the primary delimiter `--` as a substring. -/
def containsDD : Str → Bool := containsPair '-'

/-- Whether a string contains the secondary delimiter `__` as a substring. -/
def containsDunder : Str → Bool := containsPair '_'

/-- `FormatFileName` from format.go:
`{timestamp}--{comment}` then, when tags exist, `__` and the tags joined
with `_`, then `.{extension}` when the extension is non-empty. -/
def FormatFileName (c : FileNameComponents) : Str :=
  let tsComment := c.Timestamp ++ '-' :: '-' :: c.Comment
  let parts : List Str :=
    if c.Tags.length > 0 then [tsComment, ['_'].intercalate c.Tags] else [tsComment]
  let baseName := List.intercalate ['_', '_'] parts
  if c.Extension ≠ [] then baseName ++ '.' :: c.Extension else baseName

/-- `ParseFileName` from format.go: strip the extension, split the rest on
`__`; the first chunk must split on the first `--` into timestamp and
comment; every later chunk is split on `_` and all pieces are concatenated
into the tag list.  (Go's `len(parts) < 1` test is mirrored by the `[]`
branch; `strings.Split` never returns an empty slice, so it is dead.) -/
def ParseFileName (filename : Str) : Option FileNameComponents :=
  let ext := (extOf filename).drop 1
  match splitDunder (baseNameOf filename) with
  | [] => none
  | first :: restGroups =>
    (splitFirstDash first).map fun p =>
      { Timestamp := p.1, Comment := p.2,
        Tags := (restGroups.map (List.splitOn '_')).flatten,
        Extension := ext }

/-- `IsFormatted` from format.go. -/
def IsFormatted (filename : Str) : Bool := (ParseFileName filename).isSome

/-- Go byte-wise string `<=` (the order used by `sort.Strings`); UTF-8
byte order coincides with code-point order. -/
def leStr : Str → Str → Bool
  | [], _ => true
  | _ :: _, [] => false
  | a :: as, b :: bs =>
    if a < b then true else if b < a then false else leStr as bs

/-- The propositional form of `leStr`. -/
def LeStr (a b : Str) : Prop := leStr a b = true

instance : DecidableRel LeStr := fun a b => decEq (leStr a b) true

/-- `sort.Strings`: sorting in increasing byte-wise order.  The sorted
rearrangement of a list is unique (the order is total and antisymmetric),
so any correct sort models Go's; we use insertion sort, which the kernel
evaluates. -/
def sortStrings (l : List Str) : List Str := l.insertionSort LeStr

/-- `tagsEqual` from tag.go: equal lengths, then equal element-wise after
sorting both copies. -/
def tagsEqual (a b : List Str) : Bool :=
  a.length == b.length && decide (sortStrings a = sortStrings b)

/-- `MatchesExtensions` from format.go: empty filter accepts everything,
otherwise the (dot-stripped) extension must equal one of the targets
case-insensitively.  `strings.EqualFold` is modelled by `Char.toLower`,
which agrees with Go's simple folding on ASCII extensions. -/
def MatchesExtensions (filename : Str) (extensions : List Str) : Bool :=
  if extensions.isEmpty then true
  else extensions.any (fun t =>
    ((extOf filename).drop 1).map Char.toLower == t.map Char.toLower)

/-- `TagDefinition` from tag.go (one `[[tag]]` record of tag.toml). -/
structure TagDefinition where
  Key  : Str
  Desc : Str
deriving DecidableEq

/-- A directory entry as `os.ReadDir` reports it: name and is-directory flag. -/
structure DirEntry where
  name  : Str
  isDir : Bool
deriving DecidableEq

/-- The multimap update `timestampMap[ts] = append(timestampMap[ts], name)`,
on an insertion-ordered association list. -/
def mmInsert (m : List (Str × List Str)) (k : Str) (v : Str) : List (Str × List Str) :=
  match m with
  | [] => [(k, [v])]
  | (k', vs) :: rest =>
    if k' = k then (k', vs ++ [v]) :: rest else (k', vs) :: mmInsert rest k v

/-- Total number of entries inserted into the multimap (sum of the group
sizes). -/
def mmCount (m : List (Str × List Str)) : Nat := (m.map (fun p => p.2.length)).sum

/-- The map assignment `UndefinedTagFiles[name] = tags` (insert-or-replace). -/
def amInsert (m : List (Str × List Str)) (k : Str) (v : List Str) : List (Str × List Str) :=
  match m with
  | [] => [(k, v)]
  | (k', v') :: rest =>
    if k' = k then (k, v) :: rest else (k', v') :: amInsert rest k v

/-- `ValidateResult` from validate.go, together with the pass-local
`timestampMap` multimap (kept local in Go; carried here so the counting
invariant can be stated).  `DuplicateFiles` is a post-pass listing of the
multimap's non-singleton groups in Go's random map-iteration order, so it
is not modelled as a list; `HasDuplicates` is derived from the map. -/
structure ValidateState where
  TotalFiles        : Nat
  ValidFiles        : Nat
  InvalidFiles      : List Str
  timestampMap      : List (Str × List Str)
  UndefinedTagFiles : List (Str × List Str)
  HasUndefinedTags  : Bool
deriving DecidableEq

/-- One loop iteration of `ValidateFileNames` (validate.go lines 64-105):
skip directories and filtered-out names; count the entry; on parse success
record the identifier in the multimap and, when a non-empty registry is
loaded and the entry has tags, record the subset of its tags absent from
the registry if that subset is non-empty; on parse failure append to
`InvalidFiles`. -/
def validateStep (exts : List Str) (validTags : List Str) (hasTagDefinitions : Bool)
    (acc : ValidateState) (e : DirEntry) : ValidateState :=
  if e.isDir then acc
  else if MatchesExtensions e.name exts = false then acc
  else
    let acc := { acc with TotalFiles := acc.TotalFiles + 1 }
    match ParseFileName e.name with
    | some components =>
      let acc := { acc with
        ValidFiles := acc.ValidFiles + 1,
        timestampMap := mmInsert acc.timestampMap components.Timestamp e.name }
      if hasTagDefinitions ∧ components.Tags.length > 0 then
        let undefinedTags := components.Tags.filter (fun t => !(validTags.contains t))
        if undefinedTags.length > 0 then
          { acc with
            HasUndefinedTags := true,
            UndefinedTagFiles := amInsert acc.UndefinedTagFiles e.name undefinedTags }
        else acc
      else acc
    | none =>
      { acc with InvalidFiles := acc.InvalidFiles ++ [e.name] }

/-- The loop of `ValidateFileNames` as a left fold over the listing. -/
def validateLoop (exts : List Str) (validTags : List Str) (hasTagDefinitions : Bool)
    (entries : List DirEntry) (acc : ValidateState) : ValidateState :=
  match entries with
  | [] => acc
  | e :: rest => validateLoop exts validTags hasTagDefinitions rest
      (validateStep exts validTags hasTagDefinitions acc e)

/-- `ValidateFileNames` from validate.go, as a pure function of the
directory listing, the extension filter and the loaded tag registry
(`LoadTagsFromTOML` yields `[]` both when tag.toml is absent and when it
fails to load).  `validTags` is the set of registry keys;
`hasTagDefinitions` is its non-emptiness (a non-empty registry always has
at least one key, duplicates collapse but keep the set non-empty). -/
def ValidateFileNames (entries : List DirEntry) (exts : List Str)
    (tagDefs : List TagDefinition) : ValidateState :=
  let validTags := tagDefs.map TagDefinition.Key
  let hasTagDefinitions := !validTags.isEmpty
  validateLoop exts validTags hasTagDefinitions entries
    { TotalFiles := 0, ValidFiles := 0, InvalidFiles := [],
      timestampMap := [], UndefinedTagFiles := [], HasUndefinedTags := false }

/-- Errors surfaced by the tag-editing entry points. -/
inductive TagError where
  | fileNotExist
  | notFormatted
deriving DecidableEq

/-- `os.Rename(old, new)` on a directory modelled as its list of file
names: POSIX rename removes `old` and puts the file at `new`, silently
replacing any file that already existed at `new`. -/
def renameFile (dir : List Str) (oldName newName : Str) : List Str :=
  newName :: dir.filter (fun n => !(n == oldName) && !(n == newName))

/-- `SetTags` from tag.go: check the file exists and parses, sort the new
tags, and when `tagsEqual` reports a change, re-encode and rename.  The
boolean reports whether a rename was performed.  (The `IsDir` guard is
subsumed by `dir` listing only files; `os.Rename` is `renameFile`, which
never fails on an existing destination.) -/
def SetTags (dir : List Str) (fileName : Str) (tags : List Str) :
    Except TagError (List Str × Bool) :=
  if dir.contains fileName = false then .error .fileNotExist
  else
    match ParseFileName fileName with
    | none => .error .notFormatted
    | some components =>
      let sorted := sortStrings tags
      if tagsEqual components.Tags sorted then .ok (dir, false)
      else
        let newFileName := FormatFileName { components with Tags := sorted }
        .ok (renameFile dir fileName newFileName, true)

/-- The rename half of `EditTags` from tag.go, after the interactive
`promptForTags` (an external collaborator) has produced `newTags`: when
`tagsEqual` reports a change, re-encode and rename; otherwise no rename. -/
def EditTags (dir : List Str) (fileName : Str) (newTags : List Str) :
    Except TagError (List Str × Bool) :=
  if dir.contains fileName = false then .error .fileNotExist
  else
    match ParseFileName fileName with
    | none => .error .notFormatted
    | some components =>
      if tagsEqual components.Tags newTags then .ok (dir, false)
      else
        let newFileName := FormatFileName { components with Tags := newTags }
        .ok (renameFile dir fileName newFileName, true)

/-- The candidate loop of `GenerateUniqueTimestamp` (format.go): advance
one second at a time until a value outside `existing` is found.
Timestamps are modelled by their second count: Go's `Format`/`Parse` with
layout `20060102T150405` is an order isomorphism between instants and
identifier strings on the supported range, so second arithmetic models the
string round-trip exactly (the `time.Parse` failure branch is unreachable:
it re-parses a string the same layout just produced).  `fuel` bounds the
search; `existing.card` steps always suffice (proved below), matching the
unbounded Go loop. -/
def advanceLoop (existing : Finset ℕ) : ℕ → ℕ → ℕ
  | 0, t => t
  | fuel + 1, t => if t ∈ existing then advanceLoop existing fuel (t + 1) else t

/-- `GenerateUniqueTimestamp` from format.go: return `now` when it is not
in `existing`, otherwise advance one second at a time from `now + 1`. -/
def GenerateUniqueTimestamp (now : ℕ) (existing : Finset ℕ) : ℕ :=
  if now ∈ existing then advanceLoop existing existing.card (now + 1) else now

/-- N identifier requests in immediate succession against a growing
existing-set: each result is added to the set before the next request. -/
def succession : List ℕ → Finset ℕ → List ℕ
  | [], _ => []
  | now :: rest, existing =>
    let t := GenerateUniqueTimestamp now existing
    t :: succession rest (insert t existing)

/-- Modelled from the spec: the current `GenerateFileNames` (rename.go) is
not among the provided sources — src/unnamed/part_004 is a stale revision
whose `RenameOptions` lacks the `Extensions` field required by main.go and
rename_test.go, and whose single shared timestamp would make the
integration test's post-generate validation report duplicates.  Per spec
§4.2/§5, the batch run shares one starting instant `now`, collects the
existing identifiers up front, and processes entries in listing order,
skipping already-formatted ones and otherwise drawing a fresh identifier
from `GenerateUniqueTimestamp` and adding it to the existing set.  Each
entry is reduced to its already-formatted flag; the returned list is the
identifiers embedded in the names produced during the run, in order. -/
def generateRun (now : ℕ) : List Bool → Finset ℕ → List ℕ
  | [], _ => []
  | alreadyFormatted :: rest, existing =>
    if alreadyFormatted then generateRun now rest existing
    else
      let t := GenerateUniqueTimestamp now existing
      t :: generateRun now rest (insert t existing)

/-- The canonical-identifier shape of the data model: exactly 15
characters, each a digit or the literal `T`. -/
def validTimestamp (ts : Str) : Prop :=
  ts.length = 15 ∧ ∀ c ∈ ts, c.isDigit = true ∨ c = 'T'

instance : DecidablePred validTimestamp := fun ts => by
  unfold validTimestamp; infer_instance

instance : IsTrans Str LeStr where
  trans := by
    intro a
    induction a with
    | nil => intro b c _ _; rfl
    | cons x as ih =>
      intro b c hab hbc
      match b, c with
      | [], _ => simp [LeStr, leStr] at hab
      | _ :: _, [] => simp [LeStr, leStr] at hbc
      | y :: bs, z :: cs =>
        simp only [LeStr, leStr] at hab hbc ⊢
        by_cases hxy : x < y
        · by_cases hyz : y < z
          · simp [lt_trans hxy hyz]
          · by_cases hzy : z < y
            · simp [hzy, lt_asymm hzy] at hbc
            · have : y = z := le_antisymm (not_lt.mp hzy) (not_lt.mp hyz)
              subst this; simp [hxy]
        · by_cases hyx : y < x
          · simp [hxy, hyx] at hab
          · have hxyeq : x = y := le_antisymm (not_lt.mp hyx) (not_lt.mp hxy)
            subst hxyeq
            simp only [lt_irrefl, if_false] at hab
            by_cases hyz : x < z
            · simp [hyz]
            · by_cases hzy : z < x
              · simp [hzy, lt_asymm hzy] at hbc
              · simp only [if_neg hyz, if_neg hzy] at hbc ⊢
                exact ih bs cs hab hbc


instance : IsTotal Str LeStr where
  total := by
    intro a
    induction a with
    | nil => intro b; left; rfl
    | cons x as ih =>
      intro b
      match b with
      | [] => right; rfl
      | y :: bs =>
        simp only [LeStr, leStr]
        rcases lt_trichotomy x y with h | h | h
        · left; simp [h]
        · subst h
          simp only [lt_irrefl, if_false]
          exact ih bs
        · right; simp [h, lt_asymm h]

instance : IsAntisymm Str LeStr where
  antisymm := by
    intro a
    induction a with
    | nil =>
      intro b _ hba
      match b with
      | [] => rfl
      | _ :: _ => simp [LeStr, leStr] at hba
    | cons x as ih =>
      intro b hab hba
      match b with
      | [] => simp [LeStr, leStr] at hab
      | y :: bs =>
        simp only [LeStr, leStr] at hab hba
        rcases lt_trichotomy x y with h | h | h
        · simp [h, lt_asymm h] at hba
        · subst h
          simp only [lt_irrefl, if_false] at hab hba
          rw [ih bs hab hba]
        · simp [h, lt_asymm h] at hab


theorem sortStrings_perm (l : List Str) : (sortStrings l).Perm l :=
  List.perm_insertionSort _ l

theorem sortStrings_sorted (l : List Str) : List.Sorted LeStr (sortStrings l) :=
  List.sorted_insertionSort _ l

theorem sortStrings_eq_iff_perm {a b : List Str} :
    sortStrings a = sortStrings b ↔ a.Perm b := by
  constructor
  · intro h
    exact (sortStrings_perm a).symm.trans (h ▸ sortStrings_perm b)
  · intro h
    exact List.eq_of_perm_of_sorted
      ((sortStrings_perm a).trans (h.trans (sortStrings_perm b).symm))
      (sortStrings_sorted a) (sortStrings_sorted b)

/-- `tagsEqual` is exactly multiset (permutation) equality of the two tag
lists: the length test is subsumed by equality of the sorted copies. -/
theorem tagsEqual_iff_perm {a b : List Str} : tagsEqual a b = true ↔ a.Perm b := by
  unfold tagsEqual
  simp only [Bool.and_eq_true, decide_eq_true_eq, beq_iff_eq]
  constructor
  · rintro ⟨-, h⟩
    exact sortStrings_eq_iff_perm.mp h
  · intro h
    exact ⟨h.length_eq, sortStrings_eq_iff_perm.mpr h⟩

theorem containsPair_eq_false_of_not_mem {x : Char} {s : Str} (h : x ∉ s) :
    containsPair x s = false := by
  induction s with
  | nil => rfl
  | cons c s' ih =>
    have hc : ¬ c = x := fun e => h (e ▸ List.mem_cons_self c s')
    have hs' : x ∉ s' := fun m => h (List.mem_cons_of_mem _ m)
    cases s' with
    | nil => rfl
    | cons d r =>
      simp only [containsPair, ih hs', Bool.or_false, Bool.and_eq_false_iff]
      left
      simp [hc]

theorem containsPair_append_of_not_mem {x : Char} {t r : Str} (ht : x ∉ t) :
    containsPair x (t ++ r) = containsPair x r := by
  induction t with
  | nil => rfl
  | cons c t' ih =>
    have hc : ¬ c = x := fun e => ht (e ▸ List.mem_cons_self c t')
    have ht' : x ∉ t' := fun m => ht (List.mem_cons_of_mem _ m)
    rcases h : t' ++ r with _ | ⟨d, s⟩
    · rcases List.append_eq_nil.mp h with ⟨h1, h2⟩
      subst h1; subst h2; rfl
    · show containsPair x (c :: (t' ++ r)) = containsPair x r
      rw [h]
      simp only [containsPair]
      rw [← h, ih ht']
      simp [hc]

theorem containsPair_self_cons {x : Char} {rest : Str} :
    containsPair x (x :: rest)
      = (decide (rest.head? = some x) || containsPair x rest) := by
  cases rest with
  | nil => simp [containsPair]
  | cons d s =>
    by_cases h : d = x
    · subst h; simp [containsPair]
    · simp [containsPair, h]

theorem intercalate_cons_cons (sep a b : Str) (l : List Str) :
    sep.intercalate (a :: b :: l) = a ++ sep ++ sep.intercalate (b :: l) := by
  simp [List.intercalate]

theorem intercalate_single (sep a : Str) : sep.intercalate [a] = a := by
  simp [List.intercalate]

theorem mem_intercalate {c : Char} {sep : Str} {ls : List Str}
    (h : c ∈ sep.intercalate ls) : c ∈ sep ∨ ∃ l ∈ ls, c ∈ l := by
  induction ls with
  | nil => simp [List.intercalate] at h
  | cons a ls' ih =>
    cases ls' with
    | nil =>
      rw [intercalate_single] at h
      exact Or.inr ⟨a, by simp, h⟩
    | cons b l' =>
      rw [intercalate_cons_cons] at h
      rcases List.mem_append.mp h with h1 | h2
      · rcases List.mem_append.mp h1 with ha | hs
        · exact Or.inr ⟨a, by simp, ha⟩
        · exact Or.inl hs
      · rcases ih h2 with hs | ⟨l, hl, hcl⟩
        · exact Or.inl hs
        · exact Or.inr ⟨l, List.mem_cons_of_mem _ hl, hcl⟩

theorem head?_intercalate_cons (sep b : Str) (l' : List Str) (hb : b ≠ []) :
    (sep.intercalate (b :: l')).head? = b.head? := by
  rcases b with _ | ⟨hd, tl⟩
  · exact absurd rfl hb
  · cases l' with
    | nil => rw [intercalate_single]
    | cons c l'' =>
      rw [intercalate_cons_cons, List.append_assoc]
      simp [List.head?_append]

/-- Joining underscore-free non-empty tags with the single tertiary
delimiter never creates the secondary delimiter `__`. -/
theorem containsDunder_intercalate {tags : List Str}
    (hne : ∀ t ∈ tags, t ≠ []) (hfree : ∀ t ∈ tags, '_' ∉ t) :
    containsDunder (['_'].intercalate tags) = false := by
  unfold containsDunder
  induction tags with
  | nil => rfl
  | cons a ts ih =>
    cases ts with
    | nil =>
      rw [intercalate_single]
      exact containsPair_eq_false_of_not_mem (hfree a (by simp))
    | cons b l' =>
      rw [intercalate_cons_cons]
      have hassoc : (a ++ ['_']) ++ ['_'].intercalate (b :: l')
          = a ++ ('_' :: ['_'].intercalate (b :: l')) := by simp
      rw [hassoc, containsPair_append_of_not_mem (hfree a (by simp)),
        containsPair_self_cons]
      have hhd : (['_'].intercalate (b :: l')).head? = b.head? :=
        head?_intercalate_cons _ _ _ (hne b (by simp))
      have hbhead : b.head? ≠ some '_' := by
        rcases b with _ | ⟨hd, tl⟩
        · simp
        · have : hd ≠ '_' := fun e => hfree (hd :: tl) (by simp) (e ▸ List.mem_cons_self hd tl)
          simp [this]
      rw [hhd]
      have hrec : containsPair '_' (['_'].intercalate (b :: l')) = false := by
        apply ih
        · intro t htm; exact hne t (List.mem_cons_of_mem _ htm)
        · intro t htm; exact hfree t (List.mem_cons_of_mem _ htm)
      rw [hrec]
      simp [hbhead]

theorem takeWhile_ne_dot_append (e r : Str) (he : '.' ∉ e) :
    (e ++ '.' :: r).takeWhile (fun c => c != '.') = e := by
  induction e with
  | nil => simp
  | cons c e' ih =>
    have hc : ¬ c = '.' := fun h => he (h ▸ List.mem_cons_self c e')
    have he' : '.' ∉ e' := fun m => he (List.mem_cons_of_mem _ m)
    simp [List.takeWhile_cons, hc, ih he']

theorem extOf_append_dot (x e : Str) (he : '.' ∉ e) :
    extOf (x ++ '.' :: e) = '.' :: e := by
  unfold extOf
  rw [if_pos (by simp)]
  have hrev : (x ++ '.' :: e).reverse = e.reverse ++ '.' :: x.reverse := by
    simp
  rw [hrev, takeWhile_ne_dot_append _ _ (by simpa using he)]
  simp

theorem baseNameOf_append_dot (x e : Str) (he : '.' ∉ e) :
    baseNameOf (x ++ '.' :: e) = x := by
  unfold baseNameOf
  rw [extOf_append_dot x e he]
  have hlen : (x ++ '.' :: e).length - ('.' :: e).length = x.length := by simp
  rw [hlen]
  exact List.take_left' rfl

theorem extOf_of_not_mem {s : Str} (h : '.' ∉ s) : extOf s = [] := by
  unfold extOf
  exact if_neg h

theorem baseNameOf_of_not_mem {s : Str} (h : '.' ∉ s) : baseNameOf s = s := by
  unfold baseNameOf
  rw [extOf_of_not_mem h]
  simp

theorem not_mem_extOf_drop_one (s : Str) : '.' ∉ (extOf s).drop 1 := by
  unfold extOf
  split
  · intro hm
    simp only [List.drop_one, List.tail_cons, List.mem_reverse] at hm
    have := List.mem_takeWhile_imp hm
    simp at this
  · simp

theorem splitFirstDash_eq_none_iff (s : Str) :
    splitFirstDash s = none ↔ containsDD s = false := by
  induction s with
  | nil => simp [splitFirstDash, containsDD, containsPair]
  | cons a s' ih =>
    cases s' with
    | nil => simp [splitFirstDash, containsDD, containsPair]
    | cons b r =>
      simp only [containsDD, containsPair, splitFirstDash]
      by_cases hab : a = '-' ∧ b = '-'
      · simp [hab]
      · rw [if_neg hab]
        simp only [Option.map_eq_none']
        rw [ih]
        have hfalse : (a == '-' && b == '-') = false := by
          by_cases ha : a = '-' <;> by_cases hb : b = '-' <;>
            simp [ha, hb] at hab ⊢
        simp only [containsDD] at *
        rw [hfalse]
        simp

theorem splitFirstDash_append (t c : Str) (h1 : containsDD t = false)
    (h2 : t.getLast? ≠ some '-') :
    splitFirstDash (t ++ '-' :: '-' :: c) = some (t, c) := by
  induction t with
  | nil => simp [splitFirstDash]
  | cons a t' ih =>
    cases t' with
    | nil =>
      have ha : a ≠ '-' := fun e => h2 (by simp [e])
      show splitFirstDash (a :: '-' :: '-' :: c) = some ([a], c)
      simp [splitFirstDash, ha]
    | cons b t'' =>
      have hb : ¬(a = '-' ∧ b = '-') := by
        intro h
        simp [containsDD, containsPair, h.1, h.2] at h1
      have h1' : containsDD (b :: t'') = false := by
        simp only [containsDD, containsPair, Bool.or_eq_false_iff] at h1
        exact h1.2
      have h2' : (b :: t'').getLast? ≠ some '-' := by
        rwa [List.getLast?_cons_cons] at h2
      have ihx := ih h1' h2'
      show splitFirstDash (a :: ((b :: t'') ++ '-' :: '-' :: c)) = some (a :: b :: t'', c)
      simp only [List.cons_append] at ihx ⊢
      rw [splitFirstDash, if_neg hb, ihx]
      rfl

theorem splitFirstDash_some {s t c : Str} (h : splitFirstDash s = some (t, c)) :
    s = t ++ '-' :: '-' :: c ∧ containsDD t = false ∧ t.getLast? ≠ some '-' := by
  induction s generalizing t c with
  | nil => simp [splitFirstDash] at h
  | cons a s' ih =>
    cases s' with
    | nil => simp [splitFirstDash] at h
    | cons b r =>
      rw [splitFirstDash] at h
      by_cases hab : a = '-' ∧ b = '-'
      · rw [if_pos hab] at h
        have hpair := Option.some.inj h
        have ht : t = [] := (Prod.mk.inj hpair).1.symm
        have hc : c = r := (Prod.mk.inj hpair).2.symm
        subst ht; subst hc
        exact ⟨by simp [hab.1, hab.2], rfl, by simp⟩
      · rw [if_neg hab] at h
        rcases Option.map_eq_some'.mp h with ⟨⟨t', c'⟩, hp, heq⟩
        have ht : t = a :: t' := (Prod.mk.inj heq).1.symm
        have hc : c = c' := (Prod.mk.inj heq).2.symm
        subst ht; subst hc
        obtain ⟨hs, hdd, hlast⟩ := ih hp
        refine ⟨by rw [List.cons_append, hs], ?_, ?_⟩
        · cases t' with
          | nil => rfl
          | cons u t'' =>
            have hu : u = b := by
              simp only [List.cons_append] at hs
              exact ((List.cons.inj hs).1).symm
            subst hu
            simp only [containsDD, containsPair, Bool.or_eq_false_iff]
            refine ⟨?_, by simpa [containsDD] using hdd⟩
            by_cases ha' : a = '-' <;> by_cases hu' : u = '-' <;>
              simp [ha', hu'] at hab ⊢
        · cases t' with
          | nil =>
            have hb : b = '-' := by
              simpa using (List.cons.inj hs).1
            intro hcontra
            have ha : a = '-' := by simpa using hcontra
            exact hab ⟨ha, hb⟩
          | cons u t'' =>
            rw [List.getLast?_cons_cons]
            exact hlast

theorem splitDunder_ne_nil (s : Str) : splitDunder s ≠ [] := by
  induction s using splitDunder.induct with
  | case1 => simp [splitDunder]
  | case2 c => simp [splitDunder]
  | case3 c₁ c₂ rest h ih => rw [splitDunder, if_pos h]; simp
  | case4 c₁ c₂ rest h ih =>
    rw [splitDunder, if_neg h]
    cases hl : splitDunder (c₂ :: rest) <;> simp [consHead]

theorem splitDunder_of_not_contains {s : Str} (h : containsDunder s = false) :
    splitDunder s = [s] := by
  induction s using splitDunder.induct with
  | case1 => rfl
  | case2 c => rfl
  | case3 c₁ c₂ rest hcond ih =>
    simp [containsDunder, containsPair, hcond.1, hcond.2] at h
  | case4 c₁ c₂ rest hcond ih =>
    have h' : containsDunder (c₂ :: rest) = false := by
      simp only [containsDunder, containsPair, Bool.or_eq_false_iff] at h
      exact h.2
    rw [splitDunder, if_neg hcond, ih h']
    simp [consHead]

theorem splitDunder_append {a : Str} (b : Str) (h1 : containsDunder a = false)
    (h2 : a.getLast? ≠ some '_') :
    splitDunder (a ++ '_' :: '_' :: b) = a :: splitDunder b := by
  induction a with
  | nil =>
    show splitDunder ('_' :: '_' :: b) = [] :: splitDunder b
    rw [splitDunder, if_pos ⟨rfl, rfl⟩]
  | cons x a' ih =>
    cases a' with
    | nil =>
      have hx : x ≠ '_' := fun e => h2 (by simp [e])
      show splitDunder (x :: '_' :: '_' :: b) = [x] :: splitDunder b
      rw [splitDunder, if_neg (fun hc => hx hc.1), splitDunder, if_pos ⟨rfl, rfl⟩]
      simp [consHead]
    | cons y a'' =>
      have hcond : ¬(x = '_' ∧ y = '_') := by
        intro hc
        simp [containsDunder, containsPair, hc.1, hc.2] at h1
      have h1' : containsDunder (y :: a'') = false := by
        simp only [containsDunder, containsPair, Bool.or_eq_false_iff] at h1
        exact h1.2
      have h2' : (y :: a'').getLast? ≠ some '_' := by
        rwa [List.getLast?_cons_cons] at h2
      have ihx := ih h1' h2'
      show splitDunder (x :: ((y :: a'') ++ '_' :: '_' :: b)) = (x :: y :: a'') :: splitDunder b
      simp only [List.cons_append] at ihx ⊢
      rw [splitDunder, if_neg hcond, ihx]
      simp [consHead]

theorem mem_of_mem_splitDunder {s : Str} {c : Char} :
    ∀ chunk ∈ splitDunder s, c ∈ chunk → c ∈ s := by
  induction s using splitDunder.induct with
  | case1 =>
    intro chunk hchunk hc
    simp [splitDunder] at hchunk
    subst hchunk
    simp at hc
  | case2 c' =>
    intro chunk hchunk hc
    simp [splitDunder] at hchunk
    subst hchunk
    exact hc
  | case3 c₁ c₂ rest h ih =>
    intro chunk hchunk hc
    rw [splitDunder, if_pos h] at hchunk
    rcases List.mem_cons.mp hchunk with rfl | hmem
    · simp at hc
    · exact List.mem_cons_of_mem _ (List.mem_cons_of_mem _ (ih chunk hmem hc))
  | case4 c₁ c₂ rest h ih =>
    intro chunk hchunk hc
    rw [splitDunder, if_neg h] at hchunk
    rcases hl : splitDunder (c₂ :: rest) with _ | ⟨hd, tl⟩
    · exact absurd hl (splitDunder_ne_nil _)
    · rw [hl] at hchunk
      simp only [consHead] at hchunk
      rcases List.mem_cons.mp hchunk with rfl | hmem
      · rcases List.mem_cons.mp hc with rfl | hhd
        · exact List.mem_cons_self _ _
        · have hmemhd : hd ∈ splitDunder (c₂ :: rest) := by
            rw [hl]; exact List.mem_cons_self _ _
          exact List.mem_cons_of_mem _ (ih hd hmemhd hhd)
      · have hmemc : chunk ∈ splitDunder (c₂ :: rest) := by
          rw [hl]; exact List.mem_cons_of_mem _ hmem
        exact List.mem_cons_of_mem _ (ih chunk hmemc hc)

theorem splitDunder_head_shape {x : Char} {l hd : Str} {tl : List Str}
    (h : splitDunder (x :: l) = hd :: tl) :
    (hd = [] ∧ x = '_') ∨ ∃ hd', hd = x :: hd' := by
  cases l with
  | nil =>
    have : hd = [x] := by
      have := h
      rw [splitDunder] at this
      exact (List.cons.inj this).1.symm
    exact Or.inr ⟨[], this⟩
  | cons y l' =>
    by_cases hcond : x = '_' ∧ y = '_'
    · rw [splitDunder, if_pos hcond] at h
      exact Or.inl ⟨(List.cons.inj h).1.symm, hcond.1⟩
    · rw [splitDunder, if_neg hcond] at h
      rcases hl : splitDunder (y :: l') with _ | ⟨h₂, t₂⟩
      · exact absurd hl (splitDunder_ne_nil _)
      · rw [hl] at h
        simp only [consHead] at h
        exact Or.inr ⟨h₂, (List.cons.inj h).1.symm⟩

theorem splitDunder_first_chunk {s first : Str} {rest : List Str}
    (h : splitDunder s = first :: rest) :
    containsDunder first = false ∧ (rest ≠ [] → first.getLast? ≠ some '_') := by
  induction s using splitDunder.induct generalizing first rest with
  | case1 =>
    rw [splitDunder] at h
    obtain ⟨rfl, rfl⟩ : first = [] ∧ rest = [] := by
      exact ⟨(List.cons.inj h).1.symm, (List.cons.inj h).2.symm⟩
    exact ⟨rfl, by simp⟩
  | case2 c =>
    rw [splitDunder] at h
    obtain ⟨rfl, rfl⟩ : first = [c] ∧ rest = [] := by
      exact ⟨(List.cons.inj h).1.symm, (List.cons.inj h).2.symm⟩
    exact ⟨rfl, by simp⟩
  | case3 c₁ c₂ rest₀ hcond ih =>
    rw [splitDunder, if_pos hcond] at h
    obtain rfl : first = [] := (List.cons.inj h).1.symm
    exact ⟨rfl, by simp⟩
  | case4 c₁ c₂ rest₀ hcond ih =>
    rw [splitDunder, if_neg hcond] at h
    rcases hl : splitDunder (c₂ :: rest₀) with _ | ⟨hd, tl⟩
    · exact absurd hl (splitDunder_ne_nil _)
    · rw [hl] at h
      simp only [consHead] at h
      obtain rfl : first = c₁ :: hd := (List.cons.inj h).1.symm
      obtain rfl : rest = tl := (List.cons.inj h).2.symm
      obtain ⟨ihdd, ihlast⟩ := ih hl
      constructor
      · cases hd with
        | nil => rfl
        | cons d hd' =>
          have hd_eq : d = c₂ := by
            rcases splitDunder_head_shape hl with ⟨habs, -⟩ | ⟨hd'', heq⟩
            · exact absurd habs (by simp)
            · exact (List.cons.inj heq).1
          subst hd_eq
          simp only [containsDunder, containsPair, Bool.or_eq_false_iff]
          constructor
          · by_cases h1 : c₁ = '_' <;> by_cases h2 : d = '_' <;>
              simp [h1, h2] at hcond ⊢
          · simpa [containsDunder] using ihdd
      · intro htl
        cases hd with
        | nil =>
          have hc₂ : c₂ = '_' := by
            rcases splitDunder_head_shape hl with ⟨-, h2⟩ | ⟨hd'', heq⟩
            · exact h2
            · exact absurd heq (by simp)
          have hc₁ : c₁ ≠ '_' := fun e => hcond ⟨e, hc₂⟩
          simp [hc₁]
        | cons d hd' =>
          rw [List.getLast?_cons_cons]
          exact ihlast htl

theorem splitDunder_intercalate {gs : List Str} (hne : gs ≠ [])
    (hfree : ∀ g ∈ gs, containsDunder g = false ∧ g.getLast? ≠ some '_') :
    splitDunder (List.intercalate ['_', '_'] gs) = gs := by
  induction gs with
  | nil => exact absurd rfl hne
  | cons g gs' ih =>
    cases gs' with
    | nil =>
      rw [intercalate_single]
      exact splitDunder_of_not_contains (hfree g (by simp)).1
    | cons g₂ l' =>
      rw [intercalate_cons_cons, List.append_assoc]
      have hg := hfree g (by simp)
      have : ['_', '_'] ++ List.intercalate ['_', '_'] (g₂ :: l')
          = '_' :: '_' :: List.intercalate ['_', '_'] (g₂ :: l') := rfl
      rw [this, splitDunder_append _ hg.1 hg.2]
      rw [ih (by simp) (fun g' hg' => hfree g' (List.mem_cons_of_mem _ hg'))]

theorem getLast?_ne_of_not_mem {s : Str} {x : Char} (h : x ∉ s) :
    s.getLast? ≠ some x := by
  intro he
  have hx : x ∈ s.getLast? := Option.mem_def.mpr he
  rcases List.mem_getLast?_eq_getLast hx with ⟨hne, heq⟩
  exact h (heq ▸ List.getLast_mem hne)

theorem validTimestamp_chars {ts : Str} (h : validTimestamp ts) :
    '-' ∉ ts ∧ '_' ∉ ts ∧ '.' ∉ ts ∧ ts ≠ [] := by
  obtain ⟨hlen, hall⟩ := h
  refine ⟨?_, ?_, ?_, ?_⟩
  · intro hm; rcases hall _ hm with hd | he <;> simp_all
  · intro hm; rcases hall _ hm with hd | he <;> simp_all
  · intro hm; rcases hall _ hm with hd | he <;> simp_all
  · intro hm; rw [hm] at hlen; simp at hlen

/-- The head segment `{timestamp}--{comment}` of an encoded name contains
no `__`, no `.`, and does not end in `_`, given a canonical timestamp and
a comment free of the tertiary delimiter and of dots. -/
theorem head_segment_facts {ts cm : Str} (hts : validTimestamp ts)
    (hcu : '_' ∉ cm) (hcd : '.' ∉ cm) :
    containsDunder (ts ++ '-' :: '-' :: cm) = false
      ∧ '.' ∉ (ts ++ '-' :: '-' :: cm)
      ∧ (ts ++ '-' :: '-' :: cm).getLast? ≠ some '_' := by
  obtain ⟨htsd, htsu, htsdot, -⟩ := validTimestamp_chars hts
  have hu : '_' ∉ ts ++ '-' :: '-' :: cm := by
    intro hm
    rcases List.mem_append.mp hm with h1 | h2
    · exact htsu h1
    · rcases h2 with _ | ⟨_, _ | ⟨_, h3⟩⟩ <;> simp_all
  have hdot : '.' ∉ ts ++ '-' :: '-' :: cm := by
    intro hm
    rcases List.mem_append.mp hm with h1 | h2
    · exact htsdot h1
    · rcases h2 with _ | ⟨_, _ | ⟨_, h3⟩⟩ <;> simp_all
  exact ⟨containsPair_eq_false_of_not_mem hu, hdot, getLast?_ne_of_not_mem hu⟩

/-- The tag part `{tag1}_{tag2}_...` of an encoded name contains no `__`
and no dot, for non-empty tags free of `_` and `.`. -/
theorem tag_segment_facts {tags : List Str} (hne : ∀ t ∈ tags, t ≠ [])
    (hu : ∀ t ∈ tags, '_' ∉ t) (hd : ∀ t ∈ tags, '.' ∉ t) :
    containsDunder (['_'].intercalate tags) = false
      ∧ '.' ∉ ['_'].intercalate tags := by
  refine ⟨containsDunder_intercalate hne hu, ?_⟩
  intro hm
  rcases mem_intercalate hm with hsep | ⟨l, hl, hcl⟩
  · simp at hsep
  · exact hd l hl hcl

/-- Evaluation lemma for `ParseFileName`: once the base name and its
`__`-split are known, the parse is the `--`-split of the first chunk. -/
theorem ParseFileName_eq {name base first : Str} {groups : List Str}
    (hb : baseNameOf name = base) (hs : splitDunder base = first :: groups) :
    ParseFileName name = (splitFirstDash first).map
      (fun p => { Timestamp := p.1, Comment := p.2,
                  Tags := (groups.map (List.splitOn '_')).flatten,
                  Extension := (extOf name).drop 1 }) := by
  unfold ParseFileName
  rw [hb, hs]

theorem FormatFileName_nil_tags (ts cm ex : Str) :
    FormatFileName ⟨ts, cm, [], ex⟩
      = if ex ≠ [] then (ts ++ '-' :: '-' :: cm) ++ '.' :: ex
        else ts ++ '-' :: '-' :: cm := by
  simp [FormatFileName, intercalate_single]

theorem FormatFileName_cons_tags (ts cm ex t : Str) (tl : List Str) :
    FormatFileName ⟨ts, cm, t :: tl, ex⟩
      = if ex ≠ []
        then ((ts ++ '-' :: '-' :: cm) ++ '_' :: '_' :: ['_'].intercalate (t :: tl)) ++ '.' :: ex
        else (ts ++ '-' :: '-' :: cm) ++ '_' :: '_' :: ['_'].intercalate (t :: tl) := by
  have hint : List.intercalate ['_', '_']
      [ts ++ '-' :: '-' :: cm, ['_'].intercalate (t :: tl)]
      = (ts ++ '-' :: '-' :: cm) ++ '_' :: '_' :: ['_'].intercalate (t :: tl) := by
    rw [intercalate_cons_cons, intercalate_single, List.append_assoc]
    rfl
  simp only [FormatFileName, List.length_cons, Nat.zero_lt_succ, if_pos, gt_iff_lt,
    Nat.succ_pos, hint]

/-- Round-trip workhorse: encoding a record with a canonical timestamp,
a comment free of `_` and `.`, non-empty tags free of `_` and `.`, and a
dot-free extension, then decoding, recovers the record exactly. -/
theorem parse_format_eq (ts cm : Str) (tg : List Str) (ex : Str)
    (hts : validTimestamp ts)
    (hcu : '_' ∉ cm) (hcd : '.' ∉ cm)
    (htg : ∀ t ∈ tg, t ≠ [] ∧ '_' ∉ t ∧ '.' ∉ t)
    (hex : '.' ∉ ex) :
    ParseFileName (FormatFileName ⟨ts, cm, tg, ex⟩) = some ⟨ts, cm, tg, ex⟩ := by
  obtain ⟨hhdd, hhdot, hhlast⟩ := head_segment_facts hts hcu hcd
  obtain ⟨htsd, -, -, -⟩ := validTimestamp_chars hts
  have hsfd : splitFirstDash (ts ++ '-' :: '-' :: cm) = some (ts, cm) :=
    splitFirstDash_append ts cm (containsPair_eq_false_of_not_mem htsd)
      (getLast?_ne_of_not_mem htsd)
  cases tg with
  | nil =>
    rw [FormatFileName_nil_tags]
    by_cases hexe : ex = []
    · subst hexe
      rw [if_neg (by simp)]
      rw [ParseFileName_eq (baseNameOf_of_not_mem hhdot)
        (splitDunder_of_not_contains hhdd)]
      rw [hsfd, extOf_of_not_mem hhdot]
      rfl
    · rw [if_pos hexe]
      rw [ParseFileName_eq (baseNameOf_append_dot _ _ hex)
        (splitDunder_of_not_contains hhdd)]
      rw [hsfd, extOf_append_dot _ _ hex]
      rfl
  | cons t tl =>
    have htne : ∀ u ∈ t :: tl, u ≠ [] := fun u hu => (htg u hu).1
    have htu : ∀ u ∈ t :: tl, '_' ∉ u := fun u hu => (htg u hu).2.1
    have htd : ∀ u ∈ t :: tl, '.' ∉ u := fun u hu => (htg u hu).2.2
    obtain ⟨htpdd, htpdot⟩ := tag_segment_facts htne htu htd
    have hbdot : '.' ∉ (ts ++ '-' :: '-' :: cm) ++ '_' :: '_' :: ['_'].intercalate (t :: tl) := by
      intro hm
      rcases List.mem_append.mp hm with h1 | h2
      · exact hhdot h1
      · rcases h2 with _ | ⟨_, _ | ⟨_, h3⟩⟩
        · exact htpdot h3
    have hsplit : splitDunder
        ((ts ++ '-' :: '-' :: cm) ++ '_' :: '_' :: ['_'].intercalate (t :: tl))
        = (ts ++ '-' :: '-' :: cm) :: [['_'].intercalate (t :: tl)] := by
      rw [splitDunder_append _ hhdd hhlast, splitDunder_of_not_contains htpdd]
    have hso : List.splitOn '_' (['_'].intercalate (t :: tl)) = t :: tl :=
      List.splitOn_intercalate (t :: tl) '_' htu (by simp)
    rw [FormatFileName_cons_tags]
    by_cases hexe : ex = []
    · subst hexe
      rw [if_neg (by simp)]
      rw [ParseFileName_eq (baseNameOf_of_not_mem hbdot) hsplit]
      rw [hsfd, extOf_of_not_mem hbdot]
      simp [hso]
    · rw [if_pos hexe]
      rw [ParseFileName_eq (baseNameOf_append_dot _ _ hex) hsplit]
      rw [hsfd, extOf_append_dot _ _ hex]
      simp [hso]

/-- A parse succeeds exactly when the first `__`-chunk of the
extension-stripped name contains the primary delimiter `--`. -/
theorem ParseFileName_isSome_iff (name : Str) :
    (ParseFileName name).isSome = true
      ↔ containsDD ((splitDunder (baseNameOf name)).headI) = true := by
  rcases hs : splitDunder (baseNameOf name) with _ | ⟨first, groups⟩
  · exact absurd hs (splitDunder_ne_nil _)
  · rw [ParseFileName_eq rfl hs]
    simp only [List.headI]
    cases ho : splitFirstDash first with
    | none =>
      have hdd := (splitFirstDash_eq_none_iff first).mp ho
      simp [hdd]
    | some p =>
      have hne : splitFirstDash first ≠ none := by simp [ho]
      cases hdd : containsDD first with
      | false => exact absurd ((splitFirstDash_eq_none_iff first).mpr hdd) hne
      | true => simp

theorem head_segment_getLast {ts cm : Str} (h : cm.getLast? ≠ some '_') :
    (ts ++ '-' :: '-' :: cm).getLast? ≠ some '_' := by
  have h2 : ('-' :: '-' :: cm).getLast? ≠ some '_' := by
    cases cm with
    | nil => simp
    | cons a as =>
      rw [List.getLast?_cons_cons, List.getLast?_cons_cons]
      exact h
  rw [List.getLast?_append]
  rcases hg : ('-' :: '-' :: cm).getLast? with _ | v
  · simp at hg
  · rw [hg] at h2
    simpa using h2

/-- The characters of the extension-stripped base name come from the
original name. -/
theorem mem_of_mem_baseNameOf {s : Str} {c : Char} (h : c ∈ baseNameOf s) : c ∈ s :=
  List.mem_of_mem_take h

/-- Frame core: re-encoding a successfully parsed record with a new tag
list and decoding again preserves timestamp, comment and extension,
provided (a) when tags are added, the parsed comment does not end in `_`
(automatic when the original name already had a tag segment), and (b) when
the parsed extension is empty, neither the original name nor the new tags
contain a dot. -/
theorem parse_new_name_frame {n : Str} {r : FileNameComponents} (newTags : List Str)
    (hp : ParseFileName n = some r)
    (h1 : newTags = [] ∨ r.Comment.getLast? ≠ some '_')
    (h2 : r.Extension ≠ [] ∨ ('.' ∉ n ∧ ∀ t ∈ newTags, '.' ∉ t)) :
    ∃ r', ParseFileName (FormatFileName { r with Tags := newTags }) = some r'
      ∧ r'.Timestamp = r.Timestamp ∧ r'.Comment = r.Comment
      ∧ r'.Extension = r.Extension := by
  rcases hs : splitDunder (baseNameOf n) with _ | ⟨first, groups⟩
  · exact absurd hs (splitDunder_ne_nil _)
  rw [ParseFileName_eq rfl hs] at hp
  rcases ho : splitFirstDash first with _ | ⟨ts₀, cm₀⟩
  · rw [ho] at hp; simp at hp
  rw [ho] at hp
  have hr : r = ⟨ts₀, cm₀, (groups.map (List.splitOn '_')).flatten, (extOf n).drop 1⟩ :=
    (Option.some.inj hp).symm
  subst hr
  have hfacts := splitDunder_first_chunk hs
  obtain ⟨hfirst_eq, -, -⟩ := splitFirstDash_some ho
  have hexdot : '.' ∉ (extOf n).drop 1 := not_mem_extOf_drop_one n
  have hfirst_dot : '.' ∉ n → '.' ∉ first := by
    intro hn hm
    exact hn (mem_of_mem_baseNameOf
      (mem_of_mem_splitDunder first (hs ▸ List.mem_cons_self first groups) hm))
  cases newTags with
  | nil =>
    show ∃ r', ParseFileName (FormatFileName ⟨ts₀, cm₀, [], (extOf n).drop 1⟩) = some r' ∧ _
    rw [FormatFileName_nil_tags, ← hfirst_eq]
    by_cases hexe : (extOf n).drop 1 = []
    · rw [hexe]
      rw [if_neg (by simp)]
      have hndot : '.' ∉ n := by
        rcases h2 with h2 | h2
        · exact absurd hexe h2
        · exact h2.1
      have hfdot := hfirst_dot hndot
      refine ⟨⟨ts₀, cm₀, [], []⟩, ?_, rfl, rfl, rfl⟩
      rw [ParseFileName_eq (baseNameOf_of_not_mem hfdot)
        (splitDunder_of_not_contains hfacts.1)]
      rw [ho, extOf_of_not_mem hfdot]
      rfl
    · rw [if_pos hexe]
      refine ⟨⟨ts₀, cm₀, [], (extOf n).drop 1⟩, ?_, rfl, rfl, rfl⟩
      rw [ParseFileName_eq (baseNameOf_append_dot _ _ hexdot)
        (splitDunder_of_not_contains hfacts.1)]
      rw [ho, extOf_append_dot _ _ hexdot]
      rfl
  | cons t tl =>
    have hcm : cm₀.getLast? ≠ some '_' := by
      rcases h1 with h1 | h1
      · simp at h1
      · exact h1
    have hlast_first : first.getLast? ≠ some '_' := by
      rw [hfirst_eq]
      exact head_segment_getLast hcm
    show ∃ r', ParseFileName (FormatFileName ⟨ts₀, cm₀, t :: tl, (extOf n).drop 1⟩)
      = some r' ∧ _
    rw [FormatFileName_cons_tags, ← hfirst_eq]
    have hsplit : splitDunder (first ++ '_' :: '_' :: ['_'].intercalate (t :: tl))
        = first :: splitDunder (['_'].intercalate (t :: tl)) :=
      splitDunder_append _ hfacts.1 hlast_first
    by_cases hexe : (extOf n).drop 1 = []
    · rw [hexe]
      rw [if_neg (by simp)]
      obtain ⟨hndot, htags_dot⟩ : '.' ∉ n ∧ ∀ u ∈ t :: tl, '.' ∉ u := by
        rcases h2 with h2 | h2
        · exact absurd hexe h2
        · exact h2
      have hbdot : '.' ∉ first ++ '_' :: '_' :: ['_'].intercalate (t :: tl) := by
        intro hm
        rcases List.mem_append.mp hm with hm1 | hm2
        · exact hfirst_dot hndot hm1
        · rcases hm2 with _ | ⟨_, _ | ⟨_, hm3⟩⟩
          rcases mem_intercalate hm3 with hsep | ⟨l, hl, hcl⟩
          · simp at hsep
          · exact htags_dot l hl hcl
      refine ⟨⟨ts₀, cm₀,
        ((splitDunder (['_'].intercalate (t :: tl))).map (List.splitOn '_')).flatten,
        []⟩, ?_, rfl, rfl, rfl⟩
      rw [ParseFileName_eq (baseNameOf_of_not_mem hbdot) hsplit]
      rw [ho, extOf_of_not_mem hbdot]
      rfl
    · rw [if_pos hexe]
      refine ⟨⟨ts₀, cm₀,
        ((splitDunder (['_'].intercalate (t :: tl))).map (List.splitOn '_')).flatten,
        (extOf n).drop 1⟩, ?_, rfl, rfl, rfl⟩
      rw [ParseFileName_eq (baseNameOf_append_dot _ _ hexdot) hsplit]
      rw [ho, extOf_append_dot _ _ hexdot]
      rfl

theorem mmCount_mmInsert (m : List (Str × List Str)) (k : Str) (v : Str) :
    mmCount (mmInsert m k v) = mmCount m + 1 := by
  induction m with
  | nil => simp [mmInsert, mmCount]
  | cons p rest ih =>
    obtain ⟨k', vs⟩ := p
    by_cases h : k' = k
    · simp [mmInsert, h, mmCount]
      omega
    · simp [mmInsert, h, mmCount] at ih ⊢
      omega

/-- One validation step preserves the counting invariant
`total = valid + |invalid|` and `valid = mmCount timestampMap`. -/
theorem validateStep_counts (exts validTags : List Str) (hTD : Bool)
    (acc : ValidateState) (e : DirEntry)
    (h1 : acc.TotalFiles = acc.ValidFiles + acc.InvalidFiles.length)
    (h2 : acc.ValidFiles = mmCount acc.timestampMap) :
    (validateStep exts validTags hTD acc e).TotalFiles
        = (validateStep exts validTags hTD acc e).ValidFiles
          + (validateStep exts validTags hTD acc e).InvalidFiles.length
      ∧ (validateStep exts validTags hTD acc e).ValidFiles
        = mmCount (validateStep exts validTags hTD acc e).timestampMap := by
  unfold validateStep
  split
  · exact ⟨h1, h2⟩
  split
  · exact ⟨h1, h2⟩
  split
  · dsimp only
    split
    · split
      · exact ⟨by simp [h1]; omega, by simp [h2, mmCount_mmInsert]⟩
      · exact ⟨by simp [h1]; omega, by simp [h2, mmCount_mmInsert]⟩
    · exact ⟨by simp [h1]; omega, by simp [h2, mmCount_mmInsert]⟩
  · exact ⟨by simp [h1]; omega, by simp [h2]⟩

theorem validateLoop_counts (exts validTags : List Str) (hTD : Bool)
    (entries : List DirEntry) (acc : ValidateState)
    (h1 : acc.TotalFiles = acc.ValidFiles + acc.InvalidFiles.length)
    (h2 : acc.ValidFiles = mmCount acc.timestampMap) :
    (validateLoop exts validTags hTD entries acc).TotalFiles
        = (validateLoop exts validTags hTD entries acc).ValidFiles
          + (validateLoop exts validTags hTD entries acc).InvalidFiles.length
      ∧ (validateLoop exts validTags hTD entries acc).ValidFiles
        = mmCount (validateLoop exts validTags hTD entries acc).timestampMap := by
  induction entries generalizing acc with
  | nil => exact ⟨h1, h2⟩
  | cons e rest ih =>
    rw [validateLoop]
    obtain ⟨s1, s2⟩ := validateStep_counts exts validTags hTD acc e h1 h2
    exact ih _ s1 s2

/-- With no tag definitions the step never touches the undefined-tag
fields. -/
theorem validateStep_no_registry (exts validTags : List Str)
    (acc : ValidateState) (e : DirEntry) :
    (validateStep exts validTags false acc e).UndefinedTagFiles
        = acc.UndefinedTagFiles
      ∧ (validateStep exts validTags false acc e).HasUndefinedTags
        = acc.HasUndefinedTags := by
  unfold validateStep
  split
  · exact ⟨rfl, rfl⟩
  split
  · exact ⟨rfl, rfl⟩
  split
  · dsimp only
    split
    · split
      · exact absurd (by assumption : (false = true) ∧ _) (by simp)
      · exact ⟨rfl, rfl⟩
    · exact ⟨rfl, rfl⟩
  · exact ⟨rfl, rfl⟩

theorem validateLoop_no_registry (exts validTags : List Str)
    (entries : List DirEntry) (acc : ValidateState) :
    (validateLoop exts validTags false entries acc).UndefinedTagFiles
        = acc.UndefinedTagFiles
      ∧ (validateLoop exts validTags false entries acc).HasUndefinedTags
        = acc.HasUndefinedTags := by
  induction entries generalizing acc with
  | nil => exact ⟨rfl, rfl⟩
  | cons e rest ih =>
    rw [validateLoop]
    obtain ⟨s1, s2⟩ := validateStep_no_registry exts validTags acc e
    obtain ⟨l1, l2⟩ := ih (validateStep exts validTags false acc e)
    exact ⟨l1.trans s1, l2.trans s2⟩

theorem mem_amInsert {m : List (Str × List Str)} {k f : Str} {v uts : List Str}
    (h : (f, uts) ∈ amInsert m k v) : (f, uts) ∈ m ∨ (f = k ∧ uts = v) := by
  induction m with
  | nil =>
    simp [amInsert] at h
    exact Or.inr ⟨h.1, h.2⟩
  | cons p rest ih =>
    obtain ⟨k', v'⟩ := p
    by_cases hk : k' = k
    · simp only [amInsert, if_pos hk] at h
      rcases List.mem_cons.mp h with hh | hh
      · exact Or.inr ⟨congrArg Prod.fst hh, congrArg Prod.snd hh⟩
      · exact Or.inl (List.mem_cons_of_mem _ hh)
    · simp only [amInsert, if_neg hk] at h
      rcases List.mem_cons.mp h with hh | hh
      · exact Or.inl (hh ▸ List.mem_cons_self _ _)
      · rcases ih hh with hin | hkv
        · exact Or.inl (List.mem_cons_of_mem _ hin)
        · exact Or.inr hkv

/-- Invariant: every recorded undefined-tag entry is the filtered
absent-from-registry subset of a successfully parsed file's tags, and is
non-empty. -/
def UndefInv (validTags : List Str) (m : List (Str × List Str)) : Prop :=
  ∀ f uts, (f, uts) ∈ m →
    ∃ c, ParseFileName f = some c
      ∧ uts = c.Tags.filter (fun t => !(validTags.contains t))
      ∧ uts ≠ []

theorem validateStep_undef (exts validTags : List Str) (hTD : Bool)
    (acc : ValidateState) (e : DirEntry)
    (h : UndefInv validTags acc.UndefinedTagFiles) :
    UndefInv validTags (validateStep exts validTags hTD acc e).UndefinedTagFiles := by
  unfold validateStep
  split
  · exact h
  split
  · exact h
  split
  · dsimp only
    split
    · split
      · next c hp hTags hu =>
        intro f uts hm
        simp only at hm
        rcases mem_amInsert hm with hin | ⟨rfl, rfl⟩
        · exact h f uts hin
        · refine ⟨c, hp, rfl, ?_⟩
          intro he
          rw [he] at hu
          simp at hu
      · exact h
    · exact h
  · exact h

theorem validateLoop_undef (exts validTags : List Str) (hTD : Bool)
    (entries : List DirEntry) (acc : ValidateState)
    (h : UndefInv validTags acc.UndefinedTagFiles) :
    UndefInv validTags
      (validateLoop exts validTags hTD entries acc).UndefinedTagFiles := by
  induction entries generalizing acc with
  | nil => exact h
  | cons e rest ih =>
    rw [validateLoop]
    exact ih _ (validateStep_undef exts validTags hTD acc e h)

/-- The candidate loop: with enough fuel (strictly more than the number of
`existing` members in the scanned window) it returns the first value at or
after its start that lies outside `existing`. -/
theorem advanceLoop_spec (ex : Finset ℕ) :
    ∀ fuel t, ((Finset.Ico t (t + fuel)).filter (· ∈ ex)).card < fuel →
      advanceLoop ex fuel t ∉ ex ∧ t ≤ advanceLoop ex fuel t
        ∧ ∀ u, t ≤ u → u < advanceLoop ex fuel t → u ∈ ex := by
  intro fuel
  induction fuel with
  | zero => intro t h; simp at h
  | succ fuel ih =>
    intro t h
    rw [advanceLoop]
    by_cases hm : t ∈ ex
    · rw [if_pos hm]
      have hins : Finset.Ico t (t + (fuel + 1))
          = insert t (Finset.Ico (t + 1) (t + 1 + fuel)) := by
        ext x
        simp only [Finset.mem_Ico, Finset.mem_insert]
        omega
      have hnotin : t ∉ (Finset.Ico (t + 1) (t + 1 + fuel)).filter (· ∈ ex) := by
        simp [Finset.mem_filter, Finset.mem_Ico]
      have hcard : ((Finset.Ico (t + 1) (t + 1 + fuel)).filter (· ∈ ex)).card < fuel := by
        rw [hins, Finset.filter_insert, if_pos hm,
          Finset.card_insert_of_not_mem hnotin] at h
        omega
      obtain ⟨ha, hb, hc⟩ := ih (t + 1) hcard
      refine ⟨ha, by omega, ?_⟩
      intro u hu1 hu2
      by_cases he : u = t
      · exact he ▸ hm
      · exact hc u (by omega) hu2
    · rw [if_neg hm]
      exact ⟨hm, le_refl t, fun u h1 h2 => absurd (lt_of_le_of_lt h1 h2) (lt_irrefl t)⟩

theorem GenerateUniqueTimestamp_fuel (now : ℕ) (ex : Finset ℕ) (hm : now ∈ ex) :
    ((Finset.Ico (now + 1) (now + 1 + ex.card)).filter (· ∈ ex)).card < ex.card := by
  have hsub : (Finset.Ico (now + 1) (now + 1 + ex.card)).filter (· ∈ ex) ⊆ ex.erase now := by
    intro x hx
    simp only [Finset.mem_filter, Finset.mem_Ico] at hx
    simp only [Finset.mem_erase]
    exact ⟨by omega, hx.2⟩
  have h1 := Finset.card_le_card hsub
  have h2 : (ex.erase now).card < ex.card := Finset.card_erase_lt_of_mem hm
  omega

theorem GenerateUniqueTimestamp_not_mem (now : ℕ) (ex : Finset ℕ) :
    GenerateUniqueTimestamp now ex ∉ ex := by
  unfold GenerateUniqueTimestamp
  by_cases hm : now ∈ ex
  · rw [if_pos hm]
    exact (advanceLoop_spec ex ex.card (now + 1)
      (GenerateUniqueTimestamp_fuel now ex hm)).1
  · rw [if_neg hm]
    exact hm

theorem GenerateUniqueTimestamp_eq_now {now : ℕ} {ex : Finset ℕ} (h : now ∉ ex) :
    GenerateUniqueTimestamp now ex = now := by
  unfold GenerateUniqueTimestamp
  exact if_neg h

theorem GenerateUniqueTimestamp_first_free {now : ℕ} {ex : Finset ℕ} (h : now ∈ ex) :
    now < GenerateUniqueTimestamp now ex
      ∧ ∀ u, now < u → u < GenerateUniqueTimestamp now ex → u ∈ ex := by
  have hspec := advanceLoop_spec ex ex.card (now + 1)
    (GenerateUniqueTimestamp_fuel now ex h)
  unfold GenerateUniqueTimestamp
  rw [if_pos h]
  have hle := hspec.2.1
  refine ⟨by omega, ?_⟩
  intro u h1 h2
  exact hspec.2.2 u (by omega) h2

theorem succession_spec (nows : List ℕ) (ex : Finset ℕ) :
    (succession nows ex).Nodup ∧ ∀ t ∈ succession nows ex, t ∉ ex := by
  induction nows generalizing ex with
  | nil => simp [succession]
  | cons n ns ih =>
    simp only [succession]
    obtain ⟨ihn, ihd⟩ := ih (insert (GenerateUniqueTimestamp n ex) ex)
    refine ⟨?_, ?_⟩
    · rw [List.nodup_cons]
      refine ⟨fun hmem => ?_, ihn⟩
      exact ihd _ hmem (Finset.mem_insert_self _ _)
    · intro t htm
      rcases List.mem_cons.mp htm with rfl | hmem
      · exact GenerateUniqueTimestamp_not_mem n ex
      · exact fun hex => ihd t hmem (Finset.mem_insert_of_mem hex)

theorem generateRun_spec (now : ℕ) (files : List Bool) (ex : Finset ℕ) :
    (generateRun now files ex).Nodup ∧ ∀ t ∈ generateRun now files ex, t ∉ ex := by
  induction files generalizing ex with
  | nil => simp [generateRun]
  | cons skip rest ih =>
    by_cases hskip : skip = true
    · subst hskip
      simpa [generateRun] using ih ex
    · have hskip' : skip = false := by simpa using hskip
      subst hskip'
      simp only [generateRun, Bool.false_eq_true, if_false]
      obtain ⟨ihn, ihd⟩ := ih (insert (GenerateUniqueTimestamp now ex) ex)
      refine ⟨?_, ?_⟩
      · rw [List.nodup_cons]
        refine ⟨fun hmem => ?_, ihn⟩
        exact ihd _ hmem (Finset.mem_insert_self _ _)
      · intro t htm
        rcases List.mem_cons.mp htm with rfl | hmem
        · exact GenerateUniqueTimestamp_not_mem now ex
        · exact fun hex => ihd t hmem (Finset.mem_insert_of_mem hex)

/-- After a rename, exactly one file bears the destination name — any
file that was already there has been replaced. -/
theorem renameFile_count (dir : List Str) (oldName newName : Str) :
    (renameFile dir oldName newName).count newName = 1 := by
  unfold renameFile
  rw [List.count_cons_self]
  have h0 : (dir.filter fun n => !(n == oldName) && !(n == newName)).count newName = 0 := by
    rw [List.count_eq_zero]
    intro hmem
    have hp := List.of_mem_filter hmem
    simp at hp
  rw [h0]

/-- `SetTags` performs the rename unconditionally once the sorted tag set
differs: there is no check whether the destination name already exists. -/
theorem SetTags_rename {dir : List Str} {f : Str} {tags : List Str}
    {r : FileNameComponents}
    (hmem : dir.contains f = true)
    (hp : ParseFileName f = some r)
    (hch : tagsEqual r.Tags (sortStrings tags) = false) :
    SetTags dir f tags
      = .ok (renameFile dir f (FormatFileName { r with Tags := sortStrings tags }),
             true) := by
  unfold SetTags
  rw [hmem, if_neg (by simp), hp]
  dsimp only
  rw [if_neg (by simp [hch])]

/-- The rename half of `EditTags` likewise renames unconditionally. -/
theorem EditTags_rename {dir : List Str} {f : Str} {newTags : List Str}
    {r : FileNameComponents}
    (hmem : dir.contains f = true)
    (hp : ParseFileName f = some r)
    (hch : tagsEqual r.Tags newTags = false) :
    EditTags dir f newTags
      = .ok (renameFile dir f (FormatFileName { r with Tags := newTags }), true) := by
  unfold EditTags
  rw [hmem, if_neg (by simp), hp]
  dsimp only
  rw [if_neg (by simp [hch])]

/-- Setting a record's own current tags is a no-op: no rename. -/
theorem SetTags_own_tags {dir : List Str} {f : Str} {r : FileNameComponents}
    (hmem : dir.contains f = true)
    (hp : ParseFileName f = some r) :
    SetTags dir f r.Tags = .ok (dir, false) := by
  unfold SetTags
  rw [hmem, if_neg (by simp), hp]
  dsimp only
  rw [if_pos (tagsEqual_iff_perm.mpr (sortStrings_perm r.Tags).symm)]

/-- Claim C1: round-trip law of the filename codec.  For every Record
whose identifier has the canonical 15-character digit/`T` shape (§3 of the
spec), whose comment and tag contents are free of the structural
delimiters (the primary `--`, the tertiary `_` — hence also the secondary
`__` — and the extension separator `.`), whose tags are non-empty (the
tag-character contract rejects empty tags), and whose extension is
dot-free, `ParseFileName (FormatFileName r)` succeeds and returns a record
equal to `r` in all four fields — in particular equal in identifier,
comment, extension, and (a fortiori, order-insensitively) in tag list. -/
theorem claim1_roundtrip (r : FileNameComponents)
    (hts : validTimestamp r.Timestamp)
    (hcm : containsDD r.Comment = false ∧ '_' ∉ r.Comment ∧ '.' ∉ r.Comment)
    (htg : ∀ t ∈ r.Tags, t ≠ [] ∧ '_' ∉ t ∧ '.' ∉ t)
    (hex : '.' ∉ r.Extension) :
    ParseFileName (FormatFileName r) = some r := by
  obtain ⟨ts, cm, tg, ex⟩ := r
  exact parse_format_eq ts cm tg ex hts hcm.2.1 hcm.2.2 htg hex

/-- Witness for C1 at the README's example record. -/
theorem claim1_roundtrip_witness :
    ParseFileName (FormatFileName ⟨chars "20250903T083109", chars "TCPIP",
        [chars "network", chars "infra"], chars "pdf"⟩)
      = some ⟨chars "20250903T083109", chars "TCPIP",
          [chars "network", chars "infra"], chars "pdf"⟩ :=
  claim1_roundtrip _ (by decide) (by decide) (by decide) (by decide)

/-- Claim C2 (spec-modelled): batch identifier generation is
collision-free.  The current rename.go is absent from the provided
sources, so the run is modelled from spec §4.2/§5 (see `generateRun`):
one shared starting instant, the existing-identifier set collected up
front and grown with every identifier issued.  The identifiers embedded in
the names produced during one run are pairwise distinct, and none collides
with a pre-existing identifier. -/
theorem claim2_batch_distinct (now : ℕ) (files : List Bool) (existing : Finset ℕ) :
    (generateRun now files existing).Nodup
      ∧ ∀ t ∈ generateRun now files existing, t ∉ existing :=
  generateRun_spec now files existing

/-- Witness for C2: a four-file run with one already-formatted file. -/
theorem claim2_batch_distinct_witness :
    (generateRun 3 [false, true, false, false] ∅).Nodup
      ∧ 3 ∉ ({10} : Finset ℕ) :=
  ⟨(claim2_batch_distinct 3 [false, true, false, false] ∅).1,
   (claim2_batch_distinct 3 [false, false, false] {10}).2 3 (by decide)⟩

/-- Counterexample to C3 as stated: with the destination name already
present in the directory, both `SetTags` and `EditTags` succeed and rename
anyway — no error is reported, and the pre-existing file at the
destination is silently replaced (the directory afterwards holds only the
destination name). -/
theorem claim3_counterexample :
    (chars "20250101T000000--a__t.pdf")
        ∈ [chars "20250101T000000--a.pdf", chars "20250101T000000--a__t.pdf"]
      ∧ SetTags [chars "20250101T000000--a.pdf", chars "20250101T000000--a__t.pdf"]
          (chars "20250101T000000--a.pdf") [chars "t"]
        = .ok ([chars "20250101T000000--a__t.pdf"], true)
      ∧ EditTags [chars "20250101T000000--a.pdf", chars "20250101T000000--a__t.pdf"]
          (chars "20250101T000000--a.pdf") [chars "t"]
        = .ok ([chars "20250101T000000--a__t.pdf"], true) :=
  ⟨by decide, rfl, rfl⟩

/-- Claim C3 (amended): neither tag-edit path checks whether the computed
new file name already exists.  Once the tag set changed, the rename is
invoked unconditionally and reported as success, and afterwards exactly
one file bears the destination name — a pre-existing file there is
replaced, never protected.  (The existence-check-and-skip exists only in
the batch `GenerateFileNames` path.) -/
theorem claim3_rename_unconditional :
    (∀ dir f tags r, dir.contains f = true → ParseFileName f = some r →
      tagsEqual r.Tags (sortStrings tags) = false →
      SetTags dir f tags
          = .ok (renameFile dir f (FormatFileName { r with Tags := sortStrings tags }),
                 true)
        ∧ (renameFile dir f (FormatFileName { r with Tags := sortStrings tags })).count
            (FormatFileName { r with Tags := sortStrings tags }) = 1)
    ∧ (∀ dir f newTags r, dir.contains f = true → ParseFileName f = some r →
      tagsEqual r.Tags newTags = false →
      EditTags dir f newTags
          = .ok (renameFile dir f (FormatFileName { r with Tags := newTags }), true)
        ∧ (renameFile dir f (FormatFileName { r with Tags := newTags })).count
            (FormatFileName { r with Tags := newTags }) = 1) :=
  ⟨fun _ _ _ _ h1 h2 h3 => ⟨SetTags_rename h1 h2 h3, renameFile_count _ _ _⟩,
   fun _ _ _ _ h1 h2 h3 => ⟨EditTags_rename h1 h2 h3, renameFile_count _ _ _⟩⟩

/-- Witness for the amended C3: a collision directory where the rename
still succeeds. -/
theorem claim3_rename_unconditional_witness :
    SetTags [chars "20250101T000000--b.pdf", chars "20250101T000000--b__x.pdf"]
        (chars "20250101T000000--b.pdf") [chars "x"]
      = .ok ([chars "20250101T000000--b__x.pdf"], true) := by
  have h := (claim3_rename_unconditional.1
    [chars "20250101T000000--b.pdf", chars "20250101T000000--b__x.pdf"]
    (chars "20250101T000000--b.pdf") [chars "x"]
    ⟨chars "20250101T000000", chars "b", [], chars "pdf"⟩
    (by decide) (by decide) (by decide)).1
  rw [h]
  rfl

/-- Counterexample to C4 as stated: `SetTags` does not deduplicate.
Setting tags `[t, t]` on a file whose current tag set is `[t]` — the same
set, order-insensitively — still reports a change and renames to a name
with the duplicated tag segment `t_t`. -/
theorem claim4_counterexample :
    SetTags [chars "20250101T000000--a__t.pdf"] (chars "20250101T000000--a__t.pdf")
        [chars "t", chars "t"]
      = .ok ([chars "20250101T000000--a__t_t.pdf"], true)
    ∧ [chars "t", chars "t"].toFinset = [chars "t"].toFinset :=
  ⟨rfl, by decide⟩

/-- Claim C4 (amended): `SetTags` applies `newTags` sorted but not
deduplicated, and `tagsEqual` — the change test — holds exactly when the
new tag list is a permutation (multiset equality, duplicates counted) of
the record's current tags; in particular calling `SetTags` with the
record's own current tags always reports no change and performs no
rename. -/
theorem claim4_settags_contract :
    (∀ cur new : List Str, tagsEqual cur (sortStrings new) = true ↔ cur.Perm new)
    ∧ (∀ dir f r, dir.contains f = true → ParseFileName f = some r →
        SetTags dir f r.Tags = .ok (dir, false)) :=
  ⟨fun cur new => by
      rw [tagsEqual_iff_perm]
      exact ⟨fun h => h.trans (sortStrings_perm new),
             fun h => h.trans (sortStrings_perm new).symm⟩,
   fun _ _ _ h1 h2 => SetTags_own_tags h1 h2⟩

/-- Witness for the amended C4: idempotence on a concrete file. -/
theorem claim4_settags_contract_witness :
    SetTags [chars "20250101T000000--doc__t1_t2.pdf"]
        (chars "20250101T000000--doc__t1_t2.pdf") [chars "t1", chars "t2"]
      = .ok ([chars "20250101T000000--doc__t1_t2.pdf"], false) :=
  claim4_settags_contract.2 [chars "20250101T000000--doc__t1_t2.pdf"]
    (chars "20250101T000000--doc__t1_t2.pdf")
    ⟨chars "20250101T000000", chars "doc", [chars "t1", chars "t2"], chars "pdf"⟩
    (by decide) (by decide)

/-- Claim C5: decode failure condition.  `ParseFileName` succeeds exactly
when the first chunk of the extension-stripped name, split on the
secondary delimiter `__`, contains the primary delimiter `--`; names
whose first chunk lacks `--` fail, every other name decodes, and the empty
string fails. -/
theorem claim5_decode_failure :
    (∀ name : Str, (ParseFileName name).isSome = true
        ↔ containsDD ((splitDunder (baseNameOf name)).headI) = true)
      ∧ ParseFileName [] = none :=
  ⟨ParseFileName_isSome_iff, rfl⟩

/-- Claim C6: multi-group tag flattening.  A name assembled from a
canonical timestamp, a hygienic comment, two or more `__`-separated tag
groups (each free of `__`, not ending in `_`, dot-free) and a dot-free
extension parses with every group after the first split on `_` and all
pieces concatenated, in order, into one tag list. -/
theorem claim6_multi_group (ts cm ex : Str) (gs : List Str)
    (hts : validTimestamp ts)
    (hcu : '_' ∉ cm) (hcd : '.' ∉ cm)
    (hlen : 2 ≤ gs.length)
    (hg : ∀ g ∈ gs, containsDunder g = false ∧ g.getLast? ≠ some '_' ∧ '.' ∉ g)
    (hex : '.' ∉ ex) :
    ParseFileName ((ts ++ '-' :: '-' :: cm)
        ++ '_' :: '_' :: (List.intercalate ['_', '_'] gs
          ++ (if ex = [] then [] else '.' :: ex)))
      = some ⟨ts, cm, (gs.map (List.splitOn '_')).flatten, ex⟩ := by
  obtain ⟨hhdd, hhdot, hhlast⟩ := head_segment_facts hts hcu hcd
  obtain ⟨htsd, -, -, -⟩ := validTimestamp_chars hts
  have hsfd := splitFirstDash_append ts cm (containsPair_eq_false_of_not_mem htsd)
    (getLast?_ne_of_not_mem htsd)
  have hgs_ne : gs ≠ [] := by
    intro h
    rw [h] at hlen
    simp at hlen
  have hsd_int : splitDunder (List.intercalate ['_', '_'] gs) = gs :=
    splitDunder_intercalate hgs_ne (fun g hgm => ⟨(hg g hgm).1, (hg g hgm).2.1⟩)
  have hsplit : splitDunder
      ((ts ++ '-' :: '-' :: cm) ++ '_' :: '_' :: List.intercalate ['_', '_'] gs)
      = (ts ++ '-' :: '-' :: cm) :: gs := by
    rw [splitDunder_append _ hhdd hhlast, hsd_int]
  have hIdot : '.' ∉ List.intercalate ['_', '_'] gs := by
    intro hm
    rcases mem_intercalate hm with hsep | ⟨l, hl, hcl⟩
    · simp at hsep
    · exact (hg l hl).2.2 hcl
  by_cases hexe : ex = []
  · subst hexe
    rw [if_pos rfl, List.append_nil]
    have hbdot : '.' ∉ (ts ++ '-' :: '-' :: cm)
        ++ '_' :: '_' :: List.intercalate ['_', '_'] gs := by
      intro hm
      rcases List.mem_append.mp hm with h1 | h2
      · exact hhdot h1
      · rcases h2 with _ | ⟨_, _ | ⟨_, h3⟩⟩
        exact hIdot h3
    rw [ParseFileName_eq (baseNameOf_of_not_mem hbdot) hsplit, hsfd,
      extOf_of_not_mem hbdot]
    rfl
  · rw [if_neg hexe]
    have hassoc : (ts ++ '-' :: '-' :: cm)
        ++ '_' :: '_' :: (List.intercalate ['_', '_'] gs ++ '.' :: ex)
        = ((ts ++ '-' :: '-' :: cm) ++ '_' :: '_' :: List.intercalate ['_', '_'] gs)
          ++ '.' :: ex := by
      simp
    rw [hassoc, ParseFileName_eq (baseNameOf_append_dot _ _ hex) hsplit, hsfd,
      extOf_append_dot _ _ hex]
    rfl

/-- Witness for C6 at the spec's example name. -/
theorem claim6_multi_group_witness :
    ParseFileName (chars "20250101T000000--multi__tag1_tag2__tag3_tag4.md")
      = some ⟨chars "20250101T000000", chars "multi",
          [chars "tag1", chars "tag2", chars "tag3", chars "tag4"], chars "md"⟩ := by
  have h := claim6_multi_group (chars "20250101T000000") (chars "multi") (chars "md")
    [chars "tag1_tag2", chars "tag3_tag4"]
    (by decide) (by decide) (by decide) (by decide) (by decide) (by decide)
  have e1 : (chars "20250101T000000" ++ '-' :: '-' :: chars "multi")
      ++ '_' :: '_' :: (List.intercalate ['_', '_'] [chars "tag1_tag2", chars "tag3_tag4"]
        ++ (if chars "md" = [] then [] else '.' :: chars "md"))
      = chars "20250101T000000--multi__tag1_tag2__tag3_tag4.md" := by decide
  have e2 : ([chars "tag1_tag2", chars "tag3_tag4"].map (List.splitOn '_')).flatten
      = [chars "tag1", chars "tag2", chars "tag3", chars "tag4"] := by decide
  rw [e1, e2] at h
  exact h

/-- Claim C7: validation count invariant.  For every directory listing,
extension filter and loaded registry, the report satisfies
`TotalFiles = ValidFiles + |InvalidFiles|`, and `ValidFiles` equals the
number of entries inserted into the identifier multimap — so a duplicated
identifier never reduces the valid count: every member of a duplicate
group is still individually counted as well-formed. -/
theorem claim7_counts (entries : List DirEntry) (exts : List Str)
    (tagDefs : List TagDefinition) :
    (ValidateFileNames entries exts tagDefs).TotalFiles
        = (ValidateFileNames entries exts tagDefs).ValidFiles
          + (ValidateFileNames entries exts tagDefs).InvalidFiles.length
      ∧ (ValidateFileNames entries exts tagDefs).ValidFiles
        = mmCount (ValidateFileNames entries exts tagDefs).timestampMap := by
  unfold ValidateFileNames
  exact validateLoop_counts _ _ _ entries _ (by simp) (by simp [mmCount])

/-- Claim C8: uniqueness of identifier generation.
`GenerateUniqueTimestamp` returns `now` when it is free, otherwise the
first candidate strictly after `now`, advancing one second at a time, that
lies outside `existing`; the result is never a member of `existing`, and
N successive requests against a growing existing-set yield pairwise
distinct identifiers. -/
theorem claim8_unique_contract :
    (∀ now existing, now ∉ existing → GenerateUniqueTimestamp now existing = now)
    ∧ (∀ now existing, GenerateUniqueTimestamp now existing ∉ existing)
    ∧ (∀ now existing, now ∈ existing →
        now < GenerateUniqueTimestamp now existing
          ∧ ∀ u, now < u → u < GenerateUniqueTimestamp now existing → u ∈ existing)
    ∧ (∀ nows existing, (succession nows existing).Nodup) :=
  ⟨fun _ _ h => GenerateUniqueTimestamp_eq_now h,
   fun now ex => GenerateUniqueTimestamp_not_mem now ex,
   fun _ _ h => GenerateUniqueTimestamp_first_free h,
   fun nows ex => (succession_spec nows ex).1⟩

/-- Witness for C8 on small concrete sets. -/
theorem claim8_unique_contract_witness :
    GenerateUniqueTimestamp 5 ∅ = 5 ∧ 2 < GenerateUniqueTimestamp 2 {2, 3} :=
  ⟨claim8_unique_contract.1 5 ∅ (by decide),
   (claim8_unique_contract.2.2.1 2 {2, 3} (by decide)).1⟩

/-- Claim C9: tag-registry gating.  With no registry (absent or unloaded
tag.toml yields the empty list) a validation pass reports zero undefined
tags for every file; and every recorded undefined-tag entry is exactly
the non-empty subset of a successfully parsed file's tags absent from the
registry keys. -/
theorem claim9_registry_gating :
    (∀ entries exts,
        (ValidateFileNames entries exts []).HasUndefinedTags = false
          ∧ (ValidateFileNames entries exts []).UndefinedTagFiles = [])
    ∧ (∀ entries exts tagDefs f uts,
        (f, uts) ∈ (ValidateFileNames entries exts tagDefs).UndefinedTagFiles →
          ∃ c, ParseFileName f = some c
            ∧ uts = c.Tags.filter
                (fun t => !((tagDefs.map TagDefinition.Key).contains t))
            ∧ uts ≠ []) := by
  constructor
  · intro entries exts
    have h := validateLoop_no_registry exts
      (([] : List TagDefinition).map TagDefinition.Key) entries
      { TotalFiles := 0, ValidFiles := 0, InvalidFiles := [],
        timestampMap := [], UndefinedTagFiles := [], HasUndefinedTags := false }
    exact ⟨h.2, h.1⟩
  · intro entries exts tagDefs f uts hm
    exact validateLoop_undef exts (tagDefs.map TagDefinition.Key) _ entries _
      (fun _ _ h' => absurd h' (List.not_mem_nil _)) f uts hm

/-- Witness for C9: the spec's gating example. -/
theorem claim9_registry_gating_witness :
    (ValidateFileNames [⟨chars "20250101T000000--x__anything.txt", false⟩] []
        []).HasUndefinedTags = false
    ∧ ∃ c, ParseFileName (chars "20250101T000000--x__anything.txt") = some c
        ∧ [chars "anything"] = c.Tags.filter (fun t =>
            !(([⟨chars "network", chars "net"⟩] : List TagDefinition).map
              TagDefinition.Key).contains t)
        ∧ [chars "anything"] ≠ ([] : List Str) :=
  ⟨(claim9_registry_gating.1 [⟨chars "20250101T000000--x__anything.txt", false⟩] []).1,
   claim9_registry_gating.2 [⟨chars "20250101T000000--x__anything.txt", false⟩] []
     [⟨chars "network", chars "net"⟩] (chars "20250101T000000--x__anything.txt")
     [chars "anything"] (by decide)⟩

/-- Counterexample to C10 as stated: a successful `SetTags` rename on the
well-formed extensionless name `20250101T000000--doc` with the new tag
`a.b` produces `20250101T000000--doc__a.b`, which decodes with extension
`b` — the decoded extension (and tag list) changed, not only the tag
segment. -/
theorem claim10_counterexample :
    SetTags [chars "20250101T000000--doc"] (chars "20250101T000000--doc")
        [chars "a.b"]
      = .ok ([chars "20250101T000000--doc__a.b"], true)
    ∧ (ParseFileName (chars "20250101T000000--doc")).map FileNameComponents.Extension
      = some []
    ∧ (ParseFileName (chars "20250101T000000--doc__a.b")).map
        FileNameComponents.Extension
      = some (chars "b") :=
  ⟨rfl, rfl, rfl⟩

/-- Claim C10 (amended): frame property of tag editing.  Re-encoding a
successfully parsed record with a new tag list — precisely the destination
name both `SetTags` and `EditTags` compute before renaming — decodes to a
record with identical timestamp, comment and extension, provided (a) when
tags are added, the parsed comment does not end in `_` (automatic whenever
the original name already had a tag segment), and (b) when the parsed
extension is empty, neither the original name nor any new tag contains a
dot. -/
theorem claim10_frame {n : Str} {r : FileNameComponents} (newTags : List Str)
    (hp : ParseFileName n = some r)
    (h1 : newTags = [] ∨ r.Comment.getLast? ≠ some '_')
    (h2 : r.Extension ≠ [] ∨ ('.' ∉ n ∧ ∀ t ∈ newTags, '.' ∉ t)) :
    ∃ r', ParseFileName (FormatFileName { r with Tags := newTags }) = some r'
      ∧ r'.Timestamp = r.Timestamp ∧ r'.Comment = r.Comment
      ∧ r'.Extension = r.Extension :=
  parse_new_name_frame newTags hp h1 h2

/-- Witness for the amended C10 on a concrete retagging. -/
theorem claim10_frame_witness :
    ∃ r', ParseFileName (FormatFileName ⟨chars "20250101T000000", chars "doc",
        [chars "new"], chars "pdf"⟩) = some r'
      ∧ r'.Timestamp = chars "20250101T000000" ∧ r'.Comment = chars "doc"
      ∧ r'.Extension = chars "pdf" :=
  claim10_frame (n := chars "20250101T000000--doc__old.pdf")
    (r := ⟨chars "20250101T000000", chars "doc", [chars "old"], chars "pdf"⟩)
    [chars "new"] (by decide) (Or.inr (by decide)) (Or.inl (by decide))
end Parakeet
